import Mathlib

/-!
Verification of the PicolRust interpreter (`src/picol.rs`), a Tcl-like
scripting runtime: a single-pass lexer, a recursive evaluator with
variable frames and a command registry, and the built-in command set.

Embedding conventions:
* Scripts and all runtime strings are Lean `String`s.  Positions are
  character indices; for the ASCII scripts considered here Rust's byte
  positions (`s.len()`, byte slicing) and character positions
  (`chars().nth(pos)`) coincide.
* A Rust panic (`Option::unwrap` on `None`, out-of-bounds `Vec`/slice
  indexing, `usize` underflow, `i32` overflow) is modelled as `none` /
  `Outcome.panic`: the process aborts.
* Every loop of the source is written as a helper recursing on an
  explicit `Nat` bound.  Inside the lexer the bound is `len + 1`, which
  the source's own bookkeeping (`len` strictly decreases on every
  continued iteration whenever the read of the current character
  succeeds) can never exhaust; exhaustion can only happen in states
  whose `len` field underflows, which in Rust is itself a panic.
  The mutually recursive evaluator/command knot is cut by threading an
  explicit fuel through `eval` and passing `eval fuel` to the command
  implementations, mirroring the `&mut self` handle the source hands to
  every command; `Outcome.fuelOut` marks a run that exceeded the fuel
  and is distinct from a panic.
-/

/-- Status codes, `PicolResult` in the source. -/
inductive PicolResult where
  | PicolOk | PicolErr | PicolReturn | PicolBreak | PicolContinue
deriving DecidableEq

/-- Token kinds, `PicolType` in the source. -/
inductive PicolType where
  | PTEsc | PTStr | PTCmd | PTVar | PTSep | PTEol | PTEof
deriving DecidableEq

/-- Lexer state, `struct PicolParser`.  `len` is the remaining length. -/
structure PicolParser where
  string : String
  pos : Nat
  len : Nat
  start : Nat
  «end» : Nat
  typ : PicolType
  inside_quotes : Bool
deriving DecidableEq

/-- Result of running a possibly panicking, fuel-bounded computation. -/
inductive Outcome (α : Type) where
  | ok : α → Outcome α
  | panic : Outcome α
  | fuelOut : Outcome α
deriving DecidableEq

/-- Rust `self.string.chars().nth(n)`. -/
def strNth (s : String) (n : Nat) : Option Char :=
  s.toList[n]?

/-- Rust slice `&s[a..b]` (half-open), assuming `a ≤ b ≤ s.len()` was
checked at the call site. -/
def strSlice (s : String) (a b : Nat) : String :=
  (((s.toList).drop a).take (b - a)).asString

/-- Fresh parser over a script, `PicolParser::new`. -/
def PicolParser.new (s : String) : PicolParser :=
  { string := s, pos := 0, len := s.length, start := 0, «end» := 0,
    typ := PicolType.PTEol, inside_quotes := false }

/-- Loop of `parse_sep`: consume whitespace while `pos < len`. -/
def parse_sep_loop : Nat → PicolParser → Option PicolParser
  | 0, _ => none
  | bound+1, p =>
    if p.pos < p.len then
      match strNth p.string p.pos with
      | none => none
      | some c =>
        if c = ' ' ∨ c = '\t' ∨ c = '\n' ∨ c = '\r' then
          parse_sep_loop bound { p with pos := p.pos + 1, len := p.len - 1 }
        else some p
    else some p

/-- Source `parse_sep`. -/
def parse_sep (p : PicolParser) : Option PicolParser :=
  match parse_sep_loop (p.len + 1) { p with start := p.pos } with
  | none => none
  | some p => some { p with «end» := p.pos - 1, typ := PicolType.PTSep }

/-- Loop of `parse_eol`: like the separator loop but also eats `;`. -/
def parse_eol_loop : Nat → PicolParser → Option PicolParser
  | 0, _ => none
  | bound+1, p =>
    if p.pos < p.len then
      match strNth p.string p.pos with
      | none => none
      | some c =>
        if c = ' ' ∨ c = '\t' ∨ c = '\n' ∨ c = '\r' ∨ c = ';' then
          parse_eol_loop bound { p with pos := p.pos + 1, len := p.len - 1 }
        else some p
    else some p

/-- Source `parse_eol`. -/
def parse_eol (p : PicolParser) : Option PicolParser :=
  match parse_eol_loop (p.len + 1) { p with start := p.pos } with
  | none => none
  | some p => some { p with «end» := p.pos - 1, typ := PicolType.PTEol }

/-- Loop of `parse_command`: scan to the matching `]`, tracking bracket
level and brace level; `\` escapes the next character.  In the escape
case the source decrements `len` twice, so a lone trailing `\` makes
`len` underflow: a panic. -/
def parse_command_loop : Nat → Int → Int → PicolParser → Option PicolParser
  | 0, _, _, _ => none
  | bound+1, level, blevel, p =>
    if p.len = 0 then some p
    else
      match strNth p.string p.pos with
      | none => none
      | some c =>
        if c = '[' ∧ blevel = 0 then
          parse_command_loop bound (level + 1) blevel
            { p with pos := p.pos + 1, len := p.len - 1 }
        else if c = ']' ∧ blevel = 0 then
          if level - 1 = 0 then some p
          else
            parse_command_loop bound (level - 1) blevel
              { p with pos := p.pos + 1, len := p.len - 1 }
        else if c = '{' then
          parse_command_loop bound level (blevel + 1)
            { p with pos := p.pos + 1, len := p.len - 1 }
        else if c = '}' then
          parse_command_loop bound level (blevel - 1)
            { p with pos := p.pos + 1, len := p.len - 1 }
        else if c = '\\' then
          if p.len = 1 then none
          else
            parse_command_loop bound level blevel
              { p with pos := p.pos + 2, len := p.len - 2 }
        else
          parse_command_loop bound level blevel
            { p with pos := p.pos + 1, len := p.len - 1 }

/-- Source `parse_command`.  After the scan it re-reads the current
character with `unwrap`, which panics when the `[` was unterminated and
the scan ran off the end of the input. -/
def parse_command (p : PicolParser) : Option PicolParser :=
  let p := { p with pos := p.pos + 1, start := p.pos + 1, len := p.len - 1 }
  match parse_command_loop (p.len + 1) 1 0 p with
  | none => none
  | some p =>
    let p := { p with «end» := p.pos - 1, typ := PicolType.PTCmd }
    match strNth p.string p.pos with
    | none => none
    | some c =>
      if c = ']' then some { p with pos := p.pos + 1, len := p.len - 1 }
      else some p

/-- Loop of `parse_var`: consume a run of alphanumeric/underscore
characters.  The read uses `unwrap`, so running past the end of the
input panics. -/
def parse_var_loop : Nat → PicolParser → Option PicolParser
  | 0, _ => none
  | bound+1, p =>
    match strNth p.string p.pos with
    | none => none
    | some c =>
      if c.isAlphanum ∨ c = '_' then
        parse_var_loop bound { p with pos := p.pos + 1, len := p.len - 1 }
      else some p

/-- Source `parse_var`.  If no identifier character follows the `$`,
the token degenerates to a one-character `PTStr` covering the `$`. -/
def parse_var (p : PicolParser) : Option PicolParser :=
  let p := { p with pos := p.pos + 1, start := p.pos + 1, len := p.len - 1 }
  match parse_var_loop (p.len + 1) p with
  | none => none
  | some p =>
    if p.start = p.pos then
      some { p with start := p.pos - 1, «end» := p.pos - 1, typ := PicolType.PTStr }
    else
      some { p with «end» := p.pos - 1, typ := PicolType.PTVar }

/-- Loop of `parse_brace`: balance nested braces, `\` (with at least two
characters left) escapes.  The read at the top of the loop uses
`unwrap`, so an unterminated brace panics at the end of the input. -/
def parse_brace_loop : Nat → Int → PicolParser → Option PicolParser
  | 0, _, _ => none
  | bound+1, level, p =>
    match strNth p.string p.pos with
    | none => none
    | some c =>
      if p.len ≥ 2 ∧ c = '\\' then
        parse_brace_loop bound level { p with pos := p.pos + 2, len := p.len - 2 }
      else if p.len = 0 ∨ c = '}' then
        if level - 1 = 0 ∨ p.len = 0 then
          if p.len > 0 then
            some { p with «end» := p.pos - 1, typ := PicolType.PTStr,
                          pos := p.pos + 1, len := p.len - 1 }
          else
            some { p with «end» := p.pos - 1, typ := PicolType.PTStr }
        else
          parse_brace_loop bound (level - 1) { p with pos := p.pos + 1, len := p.len - 1 }
      else if c = '{' then
        parse_brace_loop bound (level + 1) { p with pos := p.pos + 1, len := p.len - 1 }
      else
        parse_brace_loop bound level { p with pos := p.pos + 1, len := p.len - 1 }

/-- Source `parse_brace`. -/
def parse_brace (p : PicolParser) : Option PicolParser :=
  let p := { p with pos := p.pos + 1, start := p.pos + 1, len := p.len - 1 }
  parse_brace_loop (p.len + 1) 1 p

/-- Scan loop of `parse_string`: stop at end of input, at `$`/`[`, at a
separator/terminator outside quotes, or at a closing `"` inside quotes;
`\` with at least two characters left keeps both characters. -/
def parse_string_loop : Nat → PicolParser → Option PicolParser
  | 0, _ => none
  | bound+1, p =>
    if p.len = 0 then
      some { p with «end» := p.pos - 1, typ := PicolType.PTEsc }
    else
      match strNth p.string p.pos with
      | none => none
      | some c =>
        if c = '\\' then
          if p.len ≥ 2 then
            parse_string_loop bound { p with pos := p.pos + 2, len := p.len - 2 }
          else
            parse_string_loop bound { p with pos := p.pos + 1, len := p.len - 1 }
        else if c = '$' ∨ c = '[' then
          some { p with «end» := p.pos - 1, typ := PicolType.PTEsc }
        else if c = ' ' ∨ c = '\t' ∨ c = '\n' ∨ c = '\r' ∨ c = ';' then
          if p.inside_quotes then
            parse_string_loop bound { p with pos := p.pos + 1, len := p.len - 1 }
          else
            some { p with «end» := p.pos - 1, typ := PicolType.PTEsc }
        else if c = '"' then
          if p.inside_quotes then
            some { p with «end» := p.pos - 1, typ := PicolType.PTEsc,
                          pos := p.pos + 1, len := p.len - 1, inside_quotes := false }
          else
            parse_string_loop bound { p with pos := p.pos + 1, len := p.len - 1 }
        else
          parse_string_loop bound { p with pos := p.pos + 1, len := p.len - 1 }

/-- Source `parse_string`: at a new-word position a `{` starts a brace
literal and a `"` enters quoted mode, otherwise scan plain text. -/
def parse_string (p : PicolParser) : Option PicolParser :=
  if p.typ = PicolType.PTEol ∨ p.typ = PicolType.PTSep ∨ p.typ = PicolType.PTStr then
    match strNth p.string p.pos with
    | none => none
    | some c =>
      if c = '{' then parse_brace p
      else
        let p :=
          if c = '"' then
            { p with inside_quotes := true, pos := p.pos + 1, len := p.len - 1 }
          else p
        parse_string_loop (p.len + 1) { p with start := p.pos }
  else
    parse_string_loop (p.len + 1) { p with start := p.pos }

/-- Loop of `parse_comment`: consume to the end of the line. -/
def parse_comment_loop : Nat → PicolParser → Option PicolParser
  | 0, _ => none
  | bound+1, p =>
    if p.len > 0 then
      match strNth p.string p.pos with
      | none => none
      | some c =>
        if c = '\n' then some p
        else parse_comment_loop bound { p with pos := p.pos + 1, len := p.len - 1 }
    else some p

/-- Source `parse_comment`. -/
def parse_comment (p : PicolParser) : Option PicolParser :=
  parse_comment_loop (p.len + 1) p

/-- Dispatch loop of `get_token`; the loop repeats only after a comment. -/
def get_token_aux : Nat → PicolParser → Option PicolParser
  | 0, _ => none
  | bound+1, p =>
    if p.len = 0 then
      if p.typ ≠ PicolType.PTEol ∧ p.typ ≠ PicolType.PTEof then
        some { p with typ := PicolType.PTEol }
      else
        some { p with typ := PicolType.PTEof }
    else
      match strNth p.string p.pos with
      | none => none
      | some c =>
        if c = ' ' ∨ c = '\t' ∨ c = '\r' then
          if p.inside_quotes then parse_string p else parse_sep p
        else if c = '\n' ∨ c = ';' then
          if p.inside_quotes then parse_string p else parse_eol p
        else if c = '[' then parse_command p
        else if c = '$' then parse_var p
        else if c = '#' then
          if p.typ = PicolType.PTEol then
            match parse_comment p with
            | none => none
            | some p => get_token_aux bound p
          else parse_string p
        else parse_string p

/-- Source `get_token`. -/
def get_token (p : PicolParser) : Option PicolParser :=
  get_token_aux (p.len + 1) p

/-!
Interpreter state.  The source's singly linked lists of commands and
call frames (`commands_head`, `callframes_head`, with `next`/`parent`
links) are modelled as Lean lists, head first; `None` at the end of a
chain is the empty list.  A frame's variable `HashMap` is modelled as an
association list with the map's lookup/insert semantics (the unused
`next` index of `PicolVar` is dropped).  Function pointers
(`PicolCommandFunc`) become a tag, one constructor per command function
of the source, interpreted by `dispatch_command`.
-/

/-- Tag standing for the Rust function pointer stored in a command. -/
inductive PicolCommandFunc where
  | picol_cmd_math | picol_cmd_set | picol_cmd_puts | picol_cmd_if
  | picol_cmd_while | picol_cmd_retcodes | picol_cmd_call_proc
  | picol_cmd_proc | picol_cmd_return
deriving DecidableEq

/-- Registered command, `struct PicolCmd` (the `next` link is the list
structure). -/
structure PicolCmd where
  name : String
  command_func : PicolCommandFunc
  private_data : List String
deriving DecidableEq

/-- Call frame, `struct PicolCallFrame` (the `parent` link is the list
structure). -/
structure PicolCallFrame where
  vars : List (String × String)
deriving DecidableEq

/-- Source `PicolCallFrame::new`. -/
def PicolCallFrame.new : PicolCallFrame := { vars := [] }

/-- Interpreter state, `struct PicolInterpreter`. -/
structure PicolInterpreter where
  level : Nat
  commands : List PicolCmd
  callframes : List PicolCallFrame
  result : String
deriving DecidableEq

/-- Source `PicolInterpreter::new`: one root frame, empty registry. -/
def PicolInterpreter.new : PicolInterpreter :=
  { level := 0, commands := [], callframes := [PicolCallFrame.new], result := "" }

/-- Source `set_result`. -/
def set_result (i : PicolInterpreter) (s : String) : PicolInterpreter :=
  { i with result := s }

/-- HashMap lookup, `cf.vars.get_mut(name)` reading the value. -/
def varsGet : List (String × String) → String → Option String
  | [], _ => none
  | (n, v) :: rest, name => if n = name then some v else varsGet rest name

/-- HashMap update-or-insert: `v.value = value` on a hit,
`cf.vars.insert(..)` on a miss. -/
def varsSet : List (String × String) → String → String → List (String × String)
  | [], name, value => [(name, value)]
  | (n, v) :: rest, name, value =>
    if n = name then (n, value) :: rest else (n, v) :: varsSet rest name value

/-- Source `get_var`: `unwrap` the current frame (panic when the frame
chain is empty) and look the name up in that frame only. -/
def get_var (i : PicolInterpreter) (name : String) : Option (Option String) :=
  match i.callframes with
  | [] => none
  | cf :: _ => some (varsGet cf.vars name)

/-- Source `set_var`: update the variable if the current frame has it,
otherwise insert it into the current frame. -/
def set_var (i : PicolInterpreter) (name value : String) : Option PicolInterpreter :=
  match i.callframes with
  | [] => none
  | cf :: rest =>
    some { i with callframes := { vars := varsSet cf.vars name value } :: rest }

/-- Walk of the command list in `get_command`. -/
def find_command : List PicolCmd → String → Option PicolCmd
  | [], _ => none
  | cmd :: rest, name => if cmd.name = name then some cmd else find_command rest name

/-- Source `get_command`: first command with the given name. -/
def get_command (i : PicolInterpreter) (name : String) : Option PicolCmd :=
  find_command i.commands name

/-- Source `register_command`: reject an existing name with an error
message, otherwise push the new command at the head of the list. -/
def register_command (i : PicolInterpreter) (name : String)
    (command_func : PicolCommandFunc) (private_data : List String) :
    PicolResult × PicolInterpreter :=
  match get_command i name with
  | some _ =>
    (PicolResult.PicolErr, set_result i (("Command ") ++ name ++ (" already exists")))
  | none =>
    (PicolResult.PicolOk,
     { i with commands :=
        { name := name, command_func := command_func, private_data := private_data }
          :: i.commands })

/-- Source `drop_callframe`: clear the current frame's variables and
make its parent current (`unwrap` panics when no frame exists). -/
def drop_callframe (i : PicolInterpreter) : Option PicolInterpreter :=
  match i.callframes with
  | [] => none
  | _ :: rest => some { i with callframes := rest }

/-- Rust `Vec` indexing `v[k]`, a panic when out of bounds. -/
def vecIdx (v : List String) (k : Nat) : Option String :=
  v[k]?

/-- Evaluation result: status code plus the updated interpreter. -/
abbrev EvalOut := Outcome (PicolResult × PicolInterpreter)

/-!
Built-in commands.  `argc` is passed separately from `argv`, as in the
source; the evaluator always passes `argc = argv.length`.
-/

/-- Source `picol_arrity_error`. -/
def picol_arrity_error (i : PicolInterpreter) (name : String) :
    PicolResult × PicolInterpreter :=
  (PicolResult.PicolErr,
   set_result i (("Wrong number of arguments for ") ++ name))

/-- Rust `str::parse::<i32>`: optional sign, at least one digit, value
within the 32-bit signed range. -/
def parse_i32 (s : String) : Option Int :=
  let digitsVal : List Char → Option Nat := fun l =>
    if l = [] then none
    else
      l.foldl (fun acc c =>
        match acc with
        | none => none
        | some n => if '0' ≤ c ∧ c ≤ '9' then some (n * 10 + (c.toNat - '0'.toNat)) else none)
        (some 0)
  match s.toList with
  | '+' :: rest =>
    match digitsVal rest with
    | none => none
    | some n => if n ≤ 2147483647 then some (n : Int) else none
  | '-' :: rest =>
    match digitsVal rest with
    | none => none
    | some n => if n ≤ 2147483648 then some (-(n : Int)) else none
  | l =>
    match digitsVal l with
    | none => none
    | some n => if n ≤ 2147483647 then some (n : Int) else none

/-- Display of an `i32` result, `result.to_string()`. -/
def i32_to_string (v : Int) : String :=
  if v < 0 then ("-") ++ Nat.repr v.natAbs else Nat.repr v.natAbs

/-- Overflow check for debug-build `i32` arithmetic: out-of-range
results panic. -/
def i32_checked (v : Int) : Option Int :=
  if -2147483648 ≤ v ∧ v ≤ 2147483647 then some v else none

/-- Source `picol_cmd_math`: both operands are parsed with `unwrap`, so
a non-integer operand panics before the operator is even inspected.
Division checks for a zero divisor first; the one overflowing quotient,
`-2147483648 / -1`, panics as in Rust (division overflow is checked in
all build modes). -/
def picol_cmd_math (i : PicolInterpreter) (argc : Nat)
    (argv _pd : List String) : EvalOut :=
  if argc ≠ 3 then
    match vecIdx argv 0 with
    | none => Outcome.panic
    | some a0 => Outcome.ok (picol_arrity_error i a0)
  else
    match vecIdx argv 1 with
    | none => Outcome.panic
    | some s1 =>
      match parse_i32 s1 with
      | none => Outcome.panic
      | some a =>
        match vecIdx argv 2 with
        | none => Outcome.panic
        | some s2 =>
          match parse_i32 s2 with
          | none => Outcome.panic
          | some b =>
            match vecIdx argv 0 with
            | none => Outcome.panic
            | some op =>
              if op = "+" then
                match i32_checked (a + b) with
                | none => Outcome.panic
                | some r => Outcome.ok (PicolResult.PicolOk, set_result i (i32_to_string r))
              else if op = "-" then
                match i32_checked (a - b) with
                | none => Outcome.panic
                | some r => Outcome.ok (PicolResult.PicolOk, set_result i (i32_to_string r))
              else if op = "*" then
                match i32_checked (a * b) with
                | none => Outcome.panic
                | some r => Outcome.ok (PicolResult.PicolOk, set_result i (i32_to_string r))
              else if op = "/" then
                if b = 0 then
                  Outcome.ok (PicolResult.PicolErr, set_result i ("Division by zero"))
                else if a = -2147483648 ∧ b = -1 then Outcome.panic
                else
                  Outcome.ok (PicolResult.PicolOk, set_result i (i32_to_string (Int.tdiv a b)))
              else if op = ">" then
                Outcome.ok (PicolResult.PicolOk, set_result i (i32_to_string (if a > b then 1 else 0)))
              else if op = "<" then
                Outcome.ok (PicolResult.PicolOk, set_result i (i32_to_string (if a < b then 1 else 0)))
              else if op = ">=" then
                Outcome.ok (PicolResult.PicolOk, set_result i (i32_to_string (if a ≥ b then 1 else 0)))
              else if op = "<=" then
                Outcome.ok (PicolResult.PicolOk, set_result i (i32_to_string (if a ≤ b then 1 else 0)))
              else if op = "==" then
                Outcome.ok (PicolResult.PicolOk, set_result i (i32_to_string (if a = b then 1 else 0)))
              else if op = "!=" then
                Outcome.ok (PicolResult.PicolOk, set_result i (i32_to_string (if a ≠ b then 1 else 0)))
              else
                Outcome.ok (PicolResult.PicolOk, set_result i (i32_to_string 0))

/-- Source `picol_cmd_set`. -/
def picol_cmd_set (i : PicolInterpreter) (argc : Nat)
    (argv _pd : List String) : EvalOut :=
  if argc ≠ 3 then
    match vecIdx argv 0 with
    | none => Outcome.panic
    | some a0 => Outcome.ok (picol_arrity_error i a0)
  else
    match vecIdx argv 1, vecIdx argv 2 with
    | some name, some value =>
      match set_var i name value with
      | none => Outcome.panic
      | some i => Outcome.ok (PicolResult.PicolOk, set_result i value)
    | _, _ => Outcome.panic

/-- Source `picol_cmd_puts`: the `println!` goes to the external output
collaborator and leaves the interpreter unchanged. -/
def picol_cmd_puts (i : PicolInterpreter) (argc : Nat)
    (argv _pd : List String) : EvalOut :=
  if argc ≠ 2 then
    match vecIdx argv 0 with
    | none => Outcome.panic
    | some a0 => Outcome.ok (picol_arrity_error i a0)
  else
    match vecIdx argv 1 with
    | none => Outcome.panic
    | some _ => Outcome.ok (PicolResult.PicolOk, i)

/-- Source `picol_cmd_retcodes`, the shared handler of `break` and
`continue`. -/
def picol_cmd_retcodes (i : PicolInterpreter) (argc : Nat)
    (argv _pd : List String) : EvalOut :=
  if argc ≠ 1 then
    match vecIdx argv 0 with
    | none => Outcome.panic
    | some a0 => Outcome.ok (picol_arrity_error i a0)
  else
    match vecIdx argv 0 with
    | none => Outcome.panic
    | some a0 =>
      if a0 = "break" then Outcome.ok (PicolResult.PicolBreak, i)
      else if a0 = "continue" then Outcome.ok (PicolResult.PicolContinue, i)
      else Outcome.ok (PicolResult.PicolOk, i)

/-- Source `picol_cmd_proc`: register the procedure name with the
call-procedure handler, closing over the parameter list and the body. -/
def picol_cmd_proc (i : PicolInterpreter) (argc : Nat)
    (argv _pd : List String) : EvalOut :=
  if argc ≠ 4 then
    match vecIdx argv 0 with
    | none => Outcome.panic
    | some a0 => Outcome.ok (picol_arrity_error i a0)
  else
    match vecIdx argv 1, vecIdx argv 2, vecIdx argv 3 with
    | some name, some params, some body =>
      Outcome.ok (register_command i name PicolCommandFunc.picol_cmd_call_proc [params, body])
    | _, _, _ => Outcome.panic

/-- Source `picol_cmd_return`. -/
def picol_cmd_return (i : PicolInterpreter) (argc : Nat)
    (argv _pd : List String) : EvalOut :=
  if argc ≠ 1 ∧ argc ≠ 2 then
    match vecIdx argv 0 with
    | none => Outcome.panic
    | some a0 => Outcome.ok (picol_arrity_error i a0)
  else
    if argc = 2 then
      match vecIdx argv 1 with
      | none => Outcome.panic
      | some v => Outcome.ok (PicolResult.PicolReturn, set_result i v)
    else Outcome.ok (PicolResult.PicolReturn, set_result i (""))

/-- Rust `str::split_whitespace` over the ASCII whitespace the scripts
use. -/
def split_whitespace (s : String) : List String :=
  (splitAux s.toList []).map List.asString
where
  splitAux : List Char → List Char → List (List Char)
    | [], [] => []
    | [], w => [w.reverse]
    | c :: rest, w =>
      if c.isWhitespace then
        if w = [] then splitAux rest [] else w.reverse :: splitAux rest []
      else splitAux rest (c :: w)

/-- Binding loop of `picol_cmd_call_proc`:
`for i in 0..args.len() { set_var(args[i], argv[i + 1]) }`. -/
def bind_proc_args (args argv : List String) :
    Nat → Nat → PicolInterpreter → Option PicolInterpreter
  | 0, _, i => some i
  | n+1, idx, i =>
    match vecIdx args idx, vecIdx argv (idx + 1) with
    | some name, some value =>
      match set_var i name value with
      | none => none
      | some i => bind_proc_args args argv n (idx + 1) i
    | _, _ => none


/-- Word assembly of `eval` (lines after the token `if` chain): a token
after a separator or end-of-command starts a new word, otherwise it is
concatenated onto the last word (`argv.pop().unwrap()` panics on an
empty word list). -/
def append_token (prev : PicolType) (argv : List String) (token : String) :
    Option (List String) :=
  if prev = PicolType.PTSep ∨ prev = PicolType.PTEol then
    some (argv ++ [token])
  else
    match argv.getLast? with
    | none => none
    | some last => some (argv.dropLast ++ [last ++ token])

/-- Handler of `if`, `picol_cmd_if`.  `ev` is the recursive-evaluation
capability the source reaches through `&mut self`. -/
def picol_cmd_if (ev : PicolInterpreter → String → EvalOut)
    (i : PicolInterpreter) (argc : Nat) (argv _pd : List String) : EvalOut :=
  if argc ≠ 3 ∧ argc ≠ 5 then
    match vecIdx argv 0 with
    | none => Outcome.panic
    | some a0 => Outcome.ok (picol_arrity_error i a0)
  else
    match vecIdx argv 1 with
    | none => Outcome.panic
    | some cond =>
      match ev i cond with
      | Outcome.ok (retcode, i) =>
        if retcode ≠ PicolResult.PicolOk then Outcome.ok (retcode, i)
        else if i.result = "1" then
          match vecIdx argv 2 with
          | none => Outcome.panic
          | some thenB => ev i thenB
        else if argc = 5 then
          match vecIdx argv 4 with
          | none => Outcome.panic
          | some elseB => ev i elseB
        else Outcome.ok (PicolResult.PicolOk, i)
      | other => other

/-- Loop of `picol_cmd_while`, transcribed with its branches exactly as
in the source: after the body evaluates, `Continue` retries the loop,
`Break` returns `Ok`, any OTHER non-`Ok` status also retries the loop,
and an `Ok` body status RETURNS it (ending the loop). -/
def picol_cmd_while_loop (ev : PicolInterpreter → String → EvalOut) :
    Nat → PicolInterpreter → List String → EvalOut
  | 0, _, _ => Outcome.fuelOut
  | fuel+1, i, argv =>
    match vecIdx argv 1 with
    | none => Outcome.panic
    | some cond =>
      match ev i cond with
      | Outcome.ok (retcode, i) =>
        if retcode ≠ PicolResult.PicolOk then Outcome.ok (retcode, i)
        else if i.result ≠ "1" then Outcome.ok (PicolResult.PicolOk, i)
        else
          match vecIdx argv 2 with
          | none => Outcome.panic
          | some body =>
            match ev i body with
            | Outcome.ok (retcode, i) =>
              if retcode = PicolResult.PicolContinue then
                picol_cmd_while_loop ev fuel i argv
              else if retcode = PicolResult.PicolBreak then
                Outcome.ok (PicolResult.PicolOk, i)
              else if retcode ≠ PicolResult.PicolOk then
                picol_cmd_while_loop ev fuel i argv
              else Outcome.ok (retcode, i)
            | other => other
      | other => other

/-- Handler of `while`, `picol_cmd_while`. -/
def picol_cmd_while (ev : PicolInterpreter → String → EvalOut) (fuel : Nat)
    (i : PicolInterpreter) (argc : Nat) (argv _pd : List String) : EvalOut :=
  if argc ≠ 3 then
    match vecIdx argv 0 with
    | none => Outcome.panic
    | some a0 => Outcome.ok (picol_arrity_error i a0)
  else picol_cmd_while_loop ev fuel i argv

/-- Source `picol_cmd_call_proc`: read the parameter list and body from
the private data, push a fresh frame, check the arity (returning the
error WITHOUT popping the frame, exactly as the source does), bind the
parameters, evaluate the body, turn `Return` into `Ok`, pop the frame
and return the status. -/
def picol_cmd_call_proc (ev : PicolInterpreter → String → EvalOut)
    (i : PicolInterpreter) (argc : Nat) (argv pd : List String) : EvalOut :=
  match vecIdx pd 0, vecIdx pd 1 with
  | some arg_ls, some body =>
    let i := { i with callframes := PicolCallFrame.new :: i.callframes }
    let args := split_whitespace arg_ls
    if args.length ≠ argc - 1 then
      match vecIdx argv 0 with
      | none => Outcome.panic
      | some a0 =>
        Outcome.ok (PicolResult.PicolErr,
          set_result i (("Wrong number of arguments for ") ++ a0))
    else
      match bind_proc_args args argv args.length 0 i with
      | none => Outcome.panic
      | some i =>
        match ev i body with
        | Outcome.ok (retcode, i) =>
          let retcode :=
            if retcode = PicolResult.PicolReturn then PicolResult.PicolOk else retcode
          match drop_callframe i with
          | none => Outcome.panic
          | some i => Outcome.ok (retcode, i)
        | other => other
  | _, _ => Outcome.panic

/-- Invocation of a stored command function pointer,
`fun(self, argc, &argv, &pd)`. -/
def dispatch_command (ev : PicolInterpreter → String → EvalOut) (fuel : Nat)
    (f : PicolCommandFunc) (i : PicolInterpreter) (argc : Nat)
    (argv pd : List String) : EvalOut :=
  match f with
  | PicolCommandFunc.picol_cmd_math => picol_cmd_math i argc argv pd
  | PicolCommandFunc.picol_cmd_set => picol_cmd_set i argc argv pd
  | PicolCommandFunc.picol_cmd_puts => picol_cmd_puts i argc argv pd
  | PicolCommandFunc.picol_cmd_if => picol_cmd_if ev i argc argv pd
  | PicolCommandFunc.picol_cmd_while => picol_cmd_while ev fuel i argc argv pd
  | PicolCommandFunc.picol_cmd_retcodes => picol_cmd_retcodes i argc argv pd
  | PicolCommandFunc.picol_cmd_call_proc => picol_cmd_call_proc ev i argc argv pd
  | PicolCommandFunc.picol_cmd_proc => picol_cmd_proc i argc argv pd
  | PicolCommandFunc.picol_cmd_return => picol_cmd_return i argc argv pd

/-- Token loop of `eval`.  Each iteration records the previous token
type, fetches a token, stops at `PTEof`, extracts the token text as the
half-open slice `string[start..end]` (a Rust panic when
`start > end`), substitutes variables and command results, dispatches a
completed command at `PTEol`, and otherwise assembles words.  `argc` of
the source always equals `argv.len()` (the two are incremented, reset
and kept in sync together), so only `argv` is carried. -/
def evalLoop (ev : PicolInterpreter → String → EvalOut) :
    Nat → PicolParser → PicolInterpreter → List String → PicolResult → EvalOut
  | 0, _, _, _, _ => Outcome.fuelOut
  | fuel+1, p0, i, argv, retcode =>
    let prev := p0.typ
    match get_token p0 with
    | none => Outcome.panic
    | some p =>
      if p.typ = PicolType.PTEof then Outcome.ok (retcode, i)
      else if p.start ≤ p.«end» ∧ p.«end» ≤ p.string.length then
        let token := strSlice p.string p.start p.«end»
        if p.typ = PicolType.PTVar then
          match get_var i token with
          | none => Outcome.panic
          | some none =>
            Outcome.ok (PicolResult.PicolErr,
              set_result i (("Unknown variable ") ++ token))
          | some (some v) =>
            match append_token prev argv v with
            | none => Outcome.panic
            | some argv => evalLoop ev fuel p i argv retcode
        else if p.typ = PicolType.PTCmd then
          match ev i token with
          | Outcome.ok (retcode, i) =>
            if retcode ≠ PicolResult.PicolOk then Outcome.ok (retcode, i)
            else
              -- the source keeps the RAW bracket text as the token: the
              -- nested Result is never substituted in
              match append_token prev argv token with
              | none => Outcome.panic
              | some argv => evalLoop ev fuel p i argv retcode
          | other => other
        else if p.typ = PicolType.PTSep then
          evalLoop ev fuel p i argv retcode
        else if p.typ = PicolType.PTEol then
          if argv.length > 0 then
            match argv with
            | [] => Outcome.panic
            | a0 :: _ =>
              match get_command i a0 with
              | some c =>
                match dispatch_command ev fuel c.command_func i argv.length argv
                    c.private_data with
                | Outcome.ok (retcode, i) =>
                  if retcode ≠ PicolResult.PicolOk then Outcome.ok (retcode, i)
                  else evalLoop ev fuel p i [] retcode
                | other => other
              | none =>
                Outcome.ok (PicolResult.PicolErr,
                  set_result i (("Unknown command ") ++ a0))
          else evalLoop ev fuel p i [] retcode
        else
          -- `PTEsc` (escape handling missing in the source) and `PTStr`
          match append_token prev argv token with
          | none => Outcome.panic
          | some argv => evalLoop ev fuel p i argv retcode
      else Outcome.panic

/-- Source `eval`: reset the result, then run the token loop with a
fresh parser.  The fuel decreases on every nested evaluation and every
loop iteration. -/
def eval : Nat → PicolInterpreter → String → EvalOut
  | 0, _, _ => Outcome.fuelOut
  | fuel+1, i, t =>
    evalLoop (fun i2 t2 => eval fuel i2 t2) fuel (PicolParser.new t)
      (set_result i ("")) [] PicolResult.PicolOk

/-- Source `register_core_commands`. -/
def register_core_commands (i : PicolInterpreter) : PicolInterpreter :=
  let i := (register_command i ("+") PicolCommandFunc.picol_cmd_math []).2
  let i := (register_command i ("-") PicolCommandFunc.picol_cmd_math []).2
  let i := (register_command i ("*") PicolCommandFunc.picol_cmd_math []).2
  let i := (register_command i ("/") PicolCommandFunc.picol_cmd_math []).2
  let i := (register_command i (">") PicolCommandFunc.picol_cmd_math []).2
  let i := (register_command i ("<") PicolCommandFunc.picol_cmd_math []).2
  let i := (register_command i (">=") PicolCommandFunc.picol_cmd_math []).2
  let i := (register_command i ("<=") PicolCommandFunc.picol_cmd_math []).2
  let i := (register_command i ("==") PicolCommandFunc.picol_cmd_math []).2
  let i := (register_command i ("!=") PicolCommandFunc.picol_cmd_math []).2
  let i := (register_command i ("set") PicolCommandFunc.picol_cmd_set []).2
  let i := (register_command i ("puts") PicolCommandFunc.picol_cmd_puts []).2
  let i := (register_command i ("if") PicolCommandFunc.picol_cmd_if []).2
  let i := (register_command i ("while") PicolCommandFunc.picol_cmd_while []).2
  let i := (register_command i ("break") PicolCommandFunc.picol_cmd_retcodes [("break")]).2
  let i := (register_command i ("continue") PicolCommandFunc.picol_cmd_retcodes [("continue")]).2
  let i := (register_command i ("proc") PicolCommandFunc.picol_cmd_proc []).2
  let i := (register_command i ("return") PicolCommandFunc.picol_cmd_return []).2
  i

/-- Interpreter right after `new` plus `register_core_commands`, the
state the excluded CLI driver evaluates scripts in. -/
def interp0 : PicolInterpreter :=
  register_core_commands PicolInterpreter.new

/-!
Lemmas about token spans.  Throughout, a parser state is described by a
decomposition of the script's character list around the cursor:
`p.string.toList = pre ++ ...` with `p.pos = pre.length`.
-/

lemma strNth_cons_at (s : String) (pre : List Char) (c : Char) (tl : List Char)
    (h : s.toList = pre ++ c :: tl) : strNth s pre.length = some c := by
  unfold strNth
  rw [h, List.getElem?_append_right (le_refl pre.length)]
  simp

lemma strSlice_take (s : String) (pre mid tl : List Char)
    (h : s.toList = pre ++ (mid ++ tl)) (k : Nat) (hk : k ≤ mid.length) :
    strSlice s pre.length (pre.length + k) = (mid.take k).asString := by
  unfold strSlice
  rw [h, Nat.add_sub_cancel_left, List.drop_left,
    List.take_append_of_le_length hk]

lemma parse_var_loop_spec (name : List Char) :
    ∀ (pre : List Char) (c : Char) (tl : List Char) (p : PicolParser) (bound : Nat),
    p.string.toList = pre ++ name ++ c :: tl →
    p.pos = pre.length →
    (∀ ch ∈ name, ch.isAlphanum ∨ ch = '_') →
    ¬(c.isAlphanum ∨ c = '_') →
    name.length + 1 ≤ bound →
    parse_var_loop bound p =
      some { p with pos := p.pos + name.length, len := p.len - name.length } := by
  induction name with
  | nil =>
    intro pre c tl p bound h hpos hname hc hbound
    cases bound with
    | zero => omega
    | succ b =>
      have hch : strNth p.string p.pos = some c := by
        rw [hpos]; exact strNth_cons_at _ _ _ _ (by simpa using h)
      simp [parse_var_loop, hch, hc]
  | cons ch name ih =>
    intro pre c tl p bound h hpos hname hc hbound
    cases bound with
    | zero => omega
    | succ b =>
      have hch : strNth p.string p.pos = some ch := by
        rw [hpos]; exact strNth_cons_at _ _ _ _ (by simpa using h)
      simp only [parse_var_loop, hch]
      rw [if_pos (hname ch (by simp))]
      rw [ih (pre ++ [ch]) c tl _ b (by simpa using h) (by simp [hpos])
        (fun ch2 h2 => hname ch2 (by simp [h2])) hc (by simp at hbound; omega)]
      simp only [Option.some.injEq, PicolParser.mk.injEq, List.length_cons,
        eq_self_iff_true, true_and, and_true]
      omega

lemma parse_var_spec (p : PicolParser) (pre name : List Char) (c : Char) (tl : List Char)
    (h : p.string.toList = pre ++ '$' :: (name ++ c :: tl))
    (hpos : p.pos = pre.length)
    (hlen : p.pos + p.len = p.string.length)
    (hname : ∀ ch ∈ name, ch.isAlphanum ∨ ch = '_')
    (hc : ¬(c.isAlphanum ∨ c = '_'))
    (hn : name ≠ []) :
    parse_var p =
      some { p with pos := p.pos + 1 + name.length, len := p.len - 1 - name.length,
                    start := p.pos + 1, «end» := p.pos + name.length,
                    typ := PicolType.PTVar } := by
  have htotal : p.string.length = pre.length + (1 + (name.length + (1 + tl.length))) := by
    have h2 := congrArg List.length h
    simp at h2
    omega
  have hnpos : 0 < name.length := List.length_pos.mpr hn
  simp only [parse_var]
  rw [parse_var_loop_spec name (pre ++ ['$']) c tl _ ((p.len - 1) + 1)
    (by simpa using h) (by simp [hpos]) hname hc (by omega)]
  simp only []
  rw [if_neg (show ¬(p.pos + 1 = p.pos + 1 + name.length) by omega)]
  simp only [Option.some.injEq, PicolParser.mk.injEq, eq_self_iff_true, true_and, and_true]
  omega

lemma parse_command_loop_spec (inner : List Char) :
    ∀ (pre tl : List Char) (p : PicolParser) (bound : Nat),
    p.string.toList = pre ++ inner ++ ']' :: tl →
    p.pos = pre.length →
    p.pos + p.len = p.string.length →
    (∀ ch ∈ inner, ch ≠ '[' ∧ ch ≠ ']' ∧ ch ≠ '{' ∧ ch ≠ '}' ∧ ch ≠ '\\') →
    inner.length + 1 ≤ bound →
    parse_command_loop bound 1 0 p =
      some { p with pos := p.pos + inner.length, len := p.len - inner.length } := by
  induction inner with
  | nil =>
    intro pre tl p bound h hpos hlen hinner hbound
    cases bound with
    | zero => omega
    | succ b =>
      have htotal : p.string.length = pre.length + (1 + tl.length) := by
        have h2 := congrArg List.length h
        simp at h2
        omega
      have hch : strNth p.string p.pos = some ']' := by
        rw [hpos]; exact strNth_cons_at _ _ _ _ (by simpa using h)
      rw [parse_command_loop, if_neg (show ¬(p.len = 0) by omega), hch]
      simp

  | cons ch inner ih =>
    intro pre tl p bound h hpos hlen hinner hbound
    cases bound with
    | zero => omega
    | succ b =>
      have htotal : p.string.length = pre.length + (ch :: inner).length + 1 + tl.length := by
        have h2 := congrArg List.length h
        simp at h2
        simp
        omega
      have hch : strNth p.string p.pos = some ch := by
        rw [hpos]; exact strNth_cons_at _ _ _ _ (by simpa using h)
      obtain ⟨h1, h2, h3, h4, h5⟩ := hinner ch (by simp)
      rw [parse_command_loop, if_neg (show ¬(p.len = 0) by simp at htotal; omega), hch]
      simp only []
      rw [if_neg (by simp [h1]), if_neg (by simp [h2]), if_neg h3, if_neg h4, if_neg h5]
      rw [ih (pre ++ [ch]) tl _ b (by simpa using h) (by simp [hpos])
        (by simp; simp at htotal; omega)
        (fun ch2 hm => hinner ch2 (by simp [hm])) (by simp at hbound; omega)]
      simp only [Option.some.injEq, PicolParser.mk.injEq, List.length_cons,
        eq_self_iff_true, true_and, and_true]
      omega

lemma parse_command_spec (p : PicolParser) (pre inner tl : List Char)
    (h : p.string.toList = pre ++ '[' :: (inner ++ ']' :: tl))
    (hpos : p.pos = pre.length)
    (hlen : p.pos + p.len = p.string.length)
    (hinner : ∀ ch ∈ inner, ch ≠ '[' ∧ ch ≠ ']' ∧ ch ≠ '{' ∧ ch ≠ '}' ∧ ch ≠ '\\') :
    parse_command p =
      some { p with pos := p.pos + 2 + inner.length, len := p.len - 2 - inner.length,
                    start := p.pos + 1, «end» := p.pos + inner.length,
                    typ := PicolType.PTCmd } := by
  have htotal : p.string.length = pre.length + (1 + (inner.length + (1 + tl.length))) := by
    have h2 := congrArg List.length h
    simp at h2
    omega
  simp only [parse_command]
  rw [parse_command_loop_spec inner (pre ++ ['[']) tl _ ((p.len - 1) + 1)
    (by simpa using h) (by simp [hpos]) (by simp; omega) hinner (by omega)]
  simp only []
  have hbr : strNth p.string (p.pos + 1 + inner.length) = some ']' := by
    have : p.pos + 1 + inner.length = (pre ++ '[' :: inner).length := by simp [hpos]; omega
    rw [this]
    exact strNth_cons_at _ _ _ _ (by simpa using h)
  rw [hbr]
  simp only [if_true]
  simp only [Option.some.injEq, PicolParser.mk.injEq, eq_self_iff_true, true_and, and_true]
  omega

lemma parse_string_loop_spec (word : List Char) :
    ∀ (pre tl : List Char) (p : PicolParser) (bound : Nat),
    p.string.toList = pre ++ word ++ tl →
    p.pos = pre.length →
    p.pos + p.len = p.string.length →
    p.inside_quotes = false →
    (∀ ch ∈ word, ch ≠ '\\' ∧ ch ≠ '$' ∧ ch ≠ '[' ∧ ch ≠ ' ' ∧ ch ≠ '\t' ∧
      ch ≠ '\n' ∧ ch ≠ '\r' ∧ ch ≠ ';' ∧ ch ≠ '"') →
    (tl = [] ∨ ∃ c2 tl2, tl = c2 :: tl2 ∧
      (c2 = '$' ∨ c2 = '[' ∨ c2 = ' ' ∨ c2 = '\t' ∨ c2 = '\n' ∨ c2 = '\r' ∨ c2 = ';')) →
    word.length + 1 ≤ bound →
    parse_string_loop bound p =
      some { p with pos := p.pos + word.length, len := p.len - word.length,
                    «end» := p.pos + word.length - 1, typ := PicolType.PTEsc } := by
  induction word with
  | nil =>
    intro pre tl p bound h hpos hlen hq hword hterm hbound
    cases bound with
    | zero => omega
    | succ b =>
      rcases hterm with rfl | ⟨c2, tl2, rfl, hc2⟩
      · have hlen0 : p.len = 0 := by
          have h2 := congrArg List.length h
          simp at h2
          omega
        rw [parse_string_loop, if_pos hlen0]
        simp
      · have htotal : p.string.length = pre.length + (1 + tl2.length) := by
          have h2 := congrArg List.length h
          simp at h2
          omega
        have hch : strNth p.string p.pos = some c2 := by
          rw [hpos]; exact strNth_cons_at _ _ _ _ (by simpa using h)
        rw [parse_string_loop, if_neg (show ¬(p.len = 0) by omega), hch]
        simp only []
        have hnb : ¬(c2 = '\\') := by
          rcases hc2 with rfl | rfl | rfl | rfl | rfl | rfl | rfl <;> decide
        rw [if_neg hnb]
        rcases hc2 with rfl | rfl | rfl | rfl | rfl | rfl | rfl <;>
          simp [hq]
  | cons w word ih =>
    intro pre tl p bound h hpos hlen hq hword hterm hbound
    cases bound with
    | zero => omega
    | succ b =>
      have htotal : p.string.length = pre.length + ((w :: word).length + tl.length) := by
        have h2 := congrArg List.length h
        simp at h2
        simp
        omega
      have hch : strNth p.string p.pos = some w := by
        rw [hpos]; exact strNth_cons_at _ _ _ _ (by simpa using h)
      obtain ⟨h1, h2, h3, h4, h5, h6, h7, h8, h9⟩ := hword w (by simp)
      rw [parse_string_loop, if_neg (show ¬(p.len = 0) by simp at htotal; omega), hch]
      simp only []
      rw [if_neg h1, if_neg (by simp [h2, h3]), if_neg (by simp [h4, h5, h6, h7, h8]),
        if_neg h9]
      rw [ih (pre ++ [w]) tl { p with pos := p.pos + 1, len := p.len - 1 } b
        (by simpa using h) (by simp [hpos])
        (by simp; simp at htotal; omega) hq
        (fun ch2 hm => hword ch2 (by simp [hm])) hterm (by simp at hbound; omega)]
      simp only [Option.some.injEq, PicolParser.mk.injEq, List.length_cons,
        eq_self_iff_true, true_and, and_true]
      omega

lemma parse_string_spec (p : PicolParser) (pre : List Char) (w : Char)
    (word tl : List Char)
    (h : p.string.toList = pre ++ (w :: word) ++ tl)
    (hpos : p.pos = pre.length)
    (hlen : p.pos + p.len = p.string.length)
    (hq : p.inside_quotes = false)
    (hword : ∀ ch ∈ w :: word, ch ≠ '\\' ∧ ch ≠ '$' ∧ ch ≠ '[' ∧ ch ≠ ' ' ∧ ch ≠ '\t' ∧
      ch ≠ '\n' ∧ ch ≠ '\r' ∧ ch ≠ ';' ∧ ch ≠ '"')
    (hterm : tl = [] ∨ ∃ c2 tl2, tl = c2 :: tl2 ∧
      (c2 = '$' ∨ c2 = '[' ∨ c2 = ' ' ∨ c2 = '\t' ∨ c2 = '\n' ∨ c2 = '\r' ∨ c2 = ';'))
    (hbrace : (p.typ = PicolType.PTEol ∨ p.typ = PicolType.PTSep ∨ p.typ = PicolType.PTStr) →
      w ≠ '{') :
    parse_string p =
      some { p with pos := p.pos + (w :: word).length, len := p.len - (w :: word).length,
                    start := p.pos, «end» := p.pos + (w :: word).length - 1,
                    typ := PicolType.PTEsc } := by
  have htotal : p.string.length = pre.length + ((w :: word).length + tl.length) := by
    have h2 := congrArg List.length h
    simp at h2
    simp
    omega
  have hch : strNth p.string p.pos = some w := by
    rw [hpos]; exact strNth_cons_at _ _ _ _ (by simpa using h)
  have h9 : w ≠ '"' := (hword w (by simp)).2.2.2.2.2.2.2.2
  have hloop : parse_string_loop (p.len + 1) { p with start := p.pos } =
      some { p with pos := p.pos + (w :: word).length, len := p.len - (w :: word).length,
                    start := p.pos, «end» := p.pos + (w :: word).length - 1,
                    typ := PicolType.PTEsc } := by
    rw [parse_string_loop_spec (w :: word) pre tl { p with start := p.pos } (p.len + 1)
      (by simpa using h) (by simpa using hpos) (by simpa using hlen) (by simpa using hq)
      hword hterm (by simp at htotal; simp; omega)]
  simp only [parse_string]
  by_cases hnw : p.typ = PicolType.PTEol ∨ p.typ = PicolType.PTSep ∨ p.typ = PicolType.PTStr
  · rw [if_pos hnw, hch]
    simp only []
    rw [if_neg (hbrace hnw), if_neg h9]
    exact hloop
  · rw [if_neg hnw]
    exact hloop

lemma strSlice_singleton (s : String) (n : Nat) (c : Char)
    (h : strNth s n = some c) : strSlice s n (n + 1) = ([c].asString) := by
  unfold strNth at h
  have hn : n < s.toList.length := by
    cases Nat.lt_or_ge n s.toList.length with
    | inl h2 => exact h2
    | inr h2 => rw [List.getElem?_eq_none h2] at h; cases h
  have hc : s.toList[n] = c := by
    rw [List.getElem?_eq_getElem hn] at h
    injection h
  unfold strSlice
  rw [Nat.add_sub_cancel_left, List.drop_eq_getElem_cons hn, hc]
  simp

/-- Claim C3: eval extracts every token's text as the half-open slice
`string[start..end]` while the lexer stores in `end` the inclusive index
of the token's last character, so for plain-text, variable-name and
command-substitution tokens of length `n ≥ 1` only the first `n - 1`
characters of the token's span reach word assembly.  Stated for each of
the three token producers: the token's intended span (the slice up to
`end + 1`) is the full lexeme, while the slice eval takes (up to `end`)
drops the last character. -/
theorem claim_C3 :
    (∀ (p : PicolParser) (pre : List Char) (w : Char) (word tl : List Char),
      p.string.toList = pre ++ (w :: word) ++ tl →
      p.pos = pre.length →
      p.pos + p.len = p.string.length →
      p.inside_quotes = false →
      (∀ ch ∈ w :: word, ch ≠ '\\' ∧ ch ≠ '$' ∧ ch ≠ '[' ∧ ch ≠ ' ' ∧ ch ≠ '\t' ∧
        ch ≠ '\n' ∧ ch ≠ '\r' ∧ ch ≠ ';' ∧ ch ≠ '"') →
      (tl = [] ∨ ∃ c2 tl2, tl = c2 :: tl2 ∧
        (c2 = '$' ∨ c2 = '[' ∨ c2 = ' ' ∨ c2 = '\t' ∨ c2 = '\n' ∨ c2 = '\r' ∨ c2 = ';')) →
      ((p.typ = PicolType.PTEol ∨ p.typ = PicolType.PTSep ∨ p.typ = PicolType.PTStr) →
        w ≠ '{') →
      ∃ p2, parse_string p = some p2 ∧ p2.typ = PicolType.PTEsc ∧
        p2.start = p.pos ∧ p2.«end» = p.pos + (w :: word).length - 1 ∧
        strSlice p2.string p2.start (p2.«end» + 1) = ((w :: word).asString) ∧
        strSlice p2.string p2.start p2.«end» = (((w :: word).dropLast).asString))
    ∧
    (∀ (p : PicolParser) (pre name : List Char) (c : Char) (tl : List Char),
      p.string.toList = pre ++ '$' :: (name ++ c :: tl) →
      p.pos = pre.length →
      p.pos + p.len = p.string.length →
      (∀ ch ∈ name, ch.isAlphanum ∨ ch = '_') →
      ¬(c.isAlphanum ∨ c = '_') →
      name ≠ [] →
      ∃ p2, parse_var p = some p2 ∧ p2.typ = PicolType.PTVar ∧
        p2.start = p.pos + 1 ∧ p2.«end» = p.pos + name.length ∧
        strSlice p2.string p2.start (p2.«end» + 1) = (name.asString) ∧
        strSlice p2.string p2.start p2.«end» = ((name.dropLast).asString))
    ∧
    (∀ (p : PicolParser) (pre inner tl : List Char),
      p.string.toList = pre ++ '[' :: (inner ++ ']' :: tl) →
      p.pos = pre.length →
      p.pos + p.len = p.string.length →
      (∀ ch ∈ inner, ch ≠ '[' ∧ ch ≠ ']' ∧ ch ≠ '{' ∧ ch ≠ '}' ∧ ch ≠ '\\') →
      inner ≠ [] →
      ∃ p2, parse_command p = some p2 ∧ p2.typ = PicolType.PTCmd ∧
        p2.start = p.pos + 1 ∧ p2.«end» = p.pos + inner.length ∧
        strSlice p2.string p2.start (p2.«end» + 1) = (inner.asString) ∧
        strSlice p2.string p2.start p2.«end» = ((inner.dropLast).asString)) := by
  refine ⟨?plain, ?var, ?cmd⟩
  case plain =>
    intro p pre w word tl h hpos hlen hq hword hterm hbrace
    refine ⟨_, parse_string_spec p pre w word tl h hpos hlen hq hword hterm hbrace,
      rfl, rfl, rfl, ?lex, ?ext⟩
    case lex =>
      have he : p.pos + (w :: word).length - 1 + 1 = p.pos + (w :: word).length := by
        simp only [List.length_cons]; omega
      simp only []
      rw [he, hpos, strSlice_take p.string pre (w :: word) tl (by simpa using h)
        (w :: word).length (le_refl _)]
      simp
    case ext =>
      have he : p.pos + (w :: word).length - 1 = p.pos + ((w :: word).length - 1) := by
        simp only [List.length_cons]; omega
      simp only []
      rw [he, hpos, strSlice_take p.string pre (w :: word) tl (by simpa using h)
        ((w :: word).length - 1) (by omega)]
      rw [List.dropLast_eq_take]
  case var =>
    intro p pre name c tl h hpos hlen hname hc hn
    have hn1 : 1 ≤ name.length := List.length_pos.mpr hn
    refine ⟨_, parse_var_spec p pre name c tl h hpos hlen hname hc hn,
      rfl, rfl, rfl, ?lex, ?ext⟩
    case lex =>
      have he : p.pos + name.length + 1 = (pre ++ ['$']).length + name.length := by
        simp [hpos]; omega
      have hs : p.pos + 1 = (pre ++ ['$']).length := by simp [hpos]
      simp only []
      rw [he, hs, strSlice_take p.string (pre ++ ['$']) name (c :: tl)
        (by simpa using h) name.length (le_refl _)]
      simp
    case ext =>
      have he : p.pos + name.length = (pre ++ ['$']).length + (name.length - 1) := by
        simp [hpos]; omega
      have hs : p.pos + 1 = (pre ++ ['$']).length := by simp [hpos]
      simp only []
      rw [he, hs, strSlice_take p.string (pre ++ ['$']) name (c :: tl)
        (by simpa using h) (name.length - 1) (by omega)]
      rw [List.dropLast_eq_take]
  case cmd =>
    intro p pre inner tl h hpos hlen hinner hn
    have hn1 : 1 ≤ inner.length := List.length_pos.mpr hn
    refine ⟨_, parse_command_spec p pre inner tl h hpos hlen hinner,
      rfl, rfl, rfl, ?lex, ?ext⟩
    case lex =>
      have he : p.pos + inner.length + 1 = (pre ++ ['[']).length + inner.length := by
        simp [hpos]; omega
      have hs : p.pos + 1 = (pre ++ ['[']).length := by simp [hpos]
      simp only []
      rw [he, hs, strSlice_take p.string (pre ++ ['[']) inner (']' :: tl)
        (by simpa using h) inner.length (le_refl _)]
      simp
    case ext =>
      have he : p.pos + inner.length = (pre ++ ['[']).length + (inner.length - 1) := by
        simp [hpos]; omega
      have hs : p.pos + 1 = (pre ++ ['[']).length := by simp [hpos]
      simp only []
      rw [he, hs, strSlice_take p.string (pre ++ ['[']) inner (']' :: tl)
        (by simpa using h) (inner.length - 1) (by omega)]
      rw [List.dropLast_eq_take]

/-- Claim C6, counterexample: at the position where a `$` is followed by
zero characters at all (a script ending in `$`), the lexer does not
yield any token — the read past the end of the input panics. -/
theorem claim_C6_counterexample :
    ¬ ∃ p2, get_token (PicolParser.new ("$")) = some p2 := by
  intro hex
  obtain ⟨p2, hp⟩ := hex
  have hnone : get_token (PicolParser.new ("$")) = none := by decide
  rw [hnone] at hp
  exact Option.noConfusion hp

/-- Claim C6 as amended: when a `$` is followed by at least one more
character and that character is not alphanumeric/underscore, the lexer
yields the `$` itself as a one-character `PTStr` (plain-text) token whose
span is exactly the `$` character, and the cursor moves just past the
`$` so tokenization continues; when the `$` is the last character of the
script the lexer panics instead (see the totality claim). -/
theorem claim_C6_amended (p : PicolParser) (c : Char)
    (hlen : p.len ≠ 0)
    (hdollar : strNth p.string p.pos = some ('$'))
    (hc : strNth p.string (p.pos + 1) = some c)
    (hvc : ¬(c.isAlphanum ∨ c = '_')) :
    get_token p = some { p with pos := p.pos + 1, len := p.len - 1,
                                start := p.pos, «end» := p.pos,
                                typ := PicolType.PTStr }
    ∧ strSlice p.string p.pos (p.pos + 1) = (['$'].asString) := by
  constructor
  · show get_token_aux (p.len + 1) p = _
    rw [get_token_aux, if_neg hlen, hdollar]
    simp only []
    rw [if_neg (by decide), if_neg (by decide), if_neg (by decide)]
    simp only [if_true]
    simp only [parse_var]
    rw [parse_var_loop]
    simp only []
    rw [hc]
    simp only []
    rw [if_neg hvc]
    simp only []
    first
    | rw [if_pos (rfl : p.pos + 1 = p.pos + 1)]
    | simp only [if_true]
    simp only [Option.some.injEq, PicolParser.mk.injEq, eq_self_iff_true, true_and, and_true]
    omega
  · exact strSlice_singleton p.string p.pos '$' hdollar

/-- Witness for the amended claim C6 at the concrete script consisting
of a dollar sign followed by a semicolon. -/
theorem claim_C6_witness :
    get_token (PicolParser.new ("$;")) =
      some { string := ("$;"), pos := 1, len := 1, start := 0, «end» := 0,
             typ := PicolType.PTStr, inside_quotes := false }
    ∧ strSlice ("$;") 0 1 = ("$") := by
  exact claim_C6_amended (PicolParser.new ("$;")) ';' (by decide) (by decide)
    (by decide) (by decide)

/-- Claim C8: when eval meets a variable-substitution token, only the
current (head) call frame is consulted — the conclusion depends only on
the head frame `cf`, never on the parent frames `rest`, even when they
bind the name — and the evaluation returns `Err` with the diagnostic
naming the unknown variable exactly when the token's name is absent
from that frame; otherwise the token's effective text entering word
assembly is the variable's value. -/
theorem claim_C8 (ev : PicolInterpreter → String → EvalOut) (fuel : Nat)
    (p p2 : PicolParser) (i : PicolInterpreter) (argv : List String)
    (rc : PicolResult) (cf : PicolCallFrame) (rest : List PicolCallFrame)
    (hget : get_token p = some p2)
    (htyp : p2.typ = PicolType.PTVar)
    (hse : p2.start ≤ p2.«end») (hee : p2.«end» ≤ p2.string.length)
    (hcf : i.callframes = cf :: rest) :
    (varsGet cf.vars (strSlice p2.string p2.start p2.«end») = none →
      evalLoop ev (fuel + 1) p i argv rc =
        Outcome.ok (PicolResult.PicolErr,
          set_result i (("Unknown variable ") ++ strSlice p2.string p2.start p2.«end»)))
    ∧ (∀ v, varsGet cf.vars (strSlice p2.string p2.start p2.«end») = some v →
      evalLoop ev (fuel + 1) p i argv rc =
        match append_token p.typ argv v with
        | none => Outcome.panic
        | some argv2 => evalLoop ev fuel p2 i argv2 rc) := by
  have hne : ¬(p2.typ = PicolType.PTEof) := by rw [htyp]; decide
  constructor
  · intro hnone
    rw [evalLoop, hget]
    simp only []
    rw [if_neg hne, if_pos ⟨hse, hee⟩, if_pos htyp]
    simp only [get_var, hcf, hnone]
  · intro v hv
    rw [evalLoop, hget]
    simp only []
    rw [if_neg hne, if_pos ⟨hse, hee⟩, if_pos htyp]
    simp only [get_var, hcf, hv]

/-- Witness for claim C8: looking up the (truncated) token of `$xx;` in
an interpreter whose current frame does not bind `x` yields the
unknown-variable error. -/
theorem claim_C8_witness :
    evalLoop (fun i2 t2 => eval 0 i2 t2) 4 (PicolParser.new ("$xx;"))
      PicolInterpreter.new [] PicolResult.PicolOk =
      Outcome.ok (PicolResult.PicolErr,
        set_result PicolInterpreter.new ("Unknown variable x")) := by
  exact (claim_C8 (fun i2 t2 => eval 0 i2 t2) 3 (PicolParser.new ("$xx;"))
    { string := ("$xx;"), pos := 3, len := 1, start := 1, «end» := 2,
      typ := PicolType.PTVar, inside_quotes := false }
    PicolInterpreter.new [] PicolResult.PicolOk PicolCallFrame.new []
    (by decide) (by decide) (by decide) (by decide) (by decide)).1 (by decide)

/-- Claim C7: registering a command under a name that already has a
definition returns `Err` with a diagnostic and leaves the command
registry unchanged, so the first definition is still found by lookup
(and hence still callable); in particular a second `proc` with the same
name returns `Err` this way. -/
theorem claim_C7 (i : PicolInterpreter) (name : String) (c : PicolCmd)
    (f : PicolCommandFunc) (pd pd2 : List String) (a0 a2 a3 : String)
    (h : get_command i name = some c) :
    register_command i name f pd =
      (PicolResult.PicolErr, set_result i (("Command ") ++ name ++ (" already exists")))
    ∧ (register_command i name f pd).2.commands = i.commands
    ∧ get_command (register_command i name f pd).2 name = some c
    ∧ picol_cmd_proc i 4 [a0, name, a2, a3] pd2 =
        Outcome.ok (PicolResult.PicolErr,
          set_result i (("Command ") ++ name ++ (" already exists"))) := by
  have h1 : register_command i name f pd =
      (PicolResult.PicolErr, set_result i (("Command ") ++ name ++ (" already exists"))) := by
    simp [register_command, h]
  refine ⟨h1, by rw [h1]; rfl, ?_, ?_⟩
  · rw [h1]
    simpa [get_command, set_result] using h
  · simp [picol_cmd_proc, vecIdx, register_command, h]

/-- Witness for claim C7: re-registering the core command `set` (for
instance through `proc`) fails and `set` keeps its native definition. -/
theorem claim_C7_witness :
    register_command interp0 ("set") PicolCommandFunc.picol_cmd_proc [] =
      (PicolResult.PicolErr, set_result interp0 ("Command set already exists"))
    ∧ get_command (register_command interp0 ("set") PicolCommandFunc.picol_cmd_proc []).2
        ("set") =
      some { name := ("set"), command_func := PicolCommandFunc.picol_cmd_set,
             private_data := [] } := by
  refine ⟨?_, ?_⟩
  · exact (claim_C7 interp0 ("set")
      { name := ("set"), command_func := PicolCommandFunc.picol_cmd_set, private_data := [] }
      PicolCommandFunc.picol_cmd_proc [] [] ("proc") ("x") ("b") (by decide)).1
  · exact (claim_C7 interp0 ("set")
      { name := ("set"), command_func := PicolCommandFunc.picol_cmd_set, private_data := [] }
      PicolCommandFunc.picol_cmd_proc [] [] ("proc") ("x") ("b") (by decide)).2.2.1

/-- Claim C10: an arithmetic or comparison command invoked with exactly
two operands panics (aborting the whole process in Rust, `Outcome.panic`
here) as soon as one of the two operands fails to parse as an integer;
no recoverable `Err` status is produced. -/
theorem claim_C10 (i : PicolInterpreter) (a0 s1 s2 : String) (pd : List String)
    (h : parse_i32 s1 = none ∨ parse_i32 s2 = none) :
    picol_cmd_math i 3 [a0, s1, s2] pd = Outcome.panic := by
  rcases h with h | h
  · simp [picol_cmd_math, vecIdx, h]
  · cases h1 : parse_i32 s1 with
    | none => simp [picol_cmd_math, vecIdx, h1]
    | some a => simp [picol_cmd_math, vecIdx, h1, h]

/-- Witness for claim C10 at a concrete non-integer operand. -/
theorem claim_C10_witness :
    parse_i32 ("abc") = none ∧
    picol_cmd_math interp0 3 [("+"), ("abc"), ("1")] [] = Outcome.panic := by
  refine ⟨by decide, ?_⟩
  exact claim_C10 interp0 ("+") ("abc") ("1") [] (Or.inl (by decide))

/-- Claim C9, counterexample: for the one overflowing quotient the
division command does not produce any `Ok` result (the handler panics):
`/ -2147483648 -1` has a non-zero divisor, both operands parse as 32-bit
integers, yet no truncated quotient is produced. -/
theorem claim_C9_counterexample :
    ¬ ∃ i2, picol_cmd_math interp0 3 [("/"), ("-2147483648"), ("-1")] [] =
        Outcome.ok (PicolResult.PicolOk, i2) := by
  intro hex
  obtain ⟨i2, hp⟩ := hex
  have hpanic : picol_cmd_math interp0 3 [("/"), ("-2147483648"), ("-1")] [] =
      Outcome.panic := by decide
  rw [hpanic] at hp
  exact Outcome.noConfusion hp

/-- Claim C9 as amended: with both operands parsing as 32-bit integers,
a zero divisor yields `Err` with the division-by-zero message and the
division is never performed; a non-zero divisor yields the quotient
truncated toward zero as Result text except for the single
non-representable case — dividend `-2147483648` with divisor `-1` —
where the handler panics (Rust checks division overflow in every build
mode). -/
theorem claim_C9_amended (i : PicolInterpreter) (pd : List String) (sa sb : String)
    (a b : Int) (ha : parse_i32 sa = some a) (hb : parse_i32 sb = some b) :
    (b = 0 → picol_cmd_math i 3 [("/"), sa, sb] pd =
      Outcome.ok (PicolResult.PicolErr, set_result i ("Division by zero")))
    ∧ (b ≠ 0 → ¬(a = -2147483648 ∧ b = -1) →
      picol_cmd_math i 3 [("/"), sa, sb] pd =
        Outcome.ok (PicolResult.PicolOk, set_result i (i32_to_string (Int.tdiv a b))))
    ∧ (a = -2147483648 → b = -1 →
      picol_cmd_math i 3 [("/"), sa, sb] pd = Outcome.panic) := by
  have hstep : picol_cmd_math i 3 [("/"), sa, sb] pd =
      (if b = 0 then
        Outcome.ok (PicolResult.PicolErr, set_result i ("Division by zero"))
      else if a = -2147483648 ∧ b = -1 then Outcome.panic
      else Outcome.ok (PicolResult.PicolOk, set_result i (i32_to_string (Int.tdiv a b)))) := by
    simp only [picol_cmd_math, vecIdx, List.getElem?_cons_zero, List.getElem?_cons_succ]
    rw [if_neg (by decide)]
    simp only [ha, hb]
    rw [if_neg (by decide), if_neg (by decide), if_neg (by decide), if_pos (by decide)]
  refine ⟨?_, ?_, ?_⟩
  · intro hb0
    rw [hstep, if_pos hb0]
  · intro hb0 hover
    rw [hstep, if_neg hb0, if_neg hover]
  · intro hamin hbm1
    rw [hstep, if_neg (by rw [hbm1]; decide), if_pos ⟨hamin, hbm1⟩]

/-- Witness for the amended claim C9: `/ 4 0` errs with the
division-by-zero message and `/ 7 2` produces `"3"`. -/
theorem claim_C9_witness :
    picol_cmd_math interp0 3 [("/"), ("4"), ("0")] [] =
      Outcome.ok (PicolResult.PicolErr, set_result interp0 ("Division by zero"))
    ∧ picol_cmd_math interp0 3 [("/"), ("7"), ("2")] [] =
      Outcome.ok (PicolResult.PicolOk, set_result interp0 ("3")) := by
  refine ⟨?_, ?_⟩
  · exact (claim_C9_amended interp0 [] ("4") ("0") 4 0 (by decide) (by decide)).1 rfl
  · exact (claim_C9_amended interp0 [] ("7") ("2") 7 2 (by decide) (by decide)).2.1
      (by decide) (by decide)

/-- Claim C1 (the code contradicts it): the `while` handler transcribed
from the source stops the loop as soon as the body returns `Ok` and
retries the loop on any other non-`Ok`, non-`Break`, non-`Continue`
status, instead of iterating on `Ok` and propagating other statuses.
First conjunct: with a condition script that always evaluates to `"1"`
with status `Ok` and a body that returns `Ok` (a `set`), the command
returns `Ok` after a single body evaluation (the final state holds the
one variable binding the body made) — under the claimed semantics this
loop could never terminate.  Second conjunct: with a body that fails
(`Err`, unknown command), the handler keeps retrying until the fuel runs
out instead of propagating the `Err` immediately.  The scripts are
chosen so that every word survives the lexer's last-character truncation
and the separator bookkeeping (see claims C2/C3). -/
theorem claim_C1 :
    picol_cmd_while (fun i t => eval 20 i t) 5 interp0 3
      [("while"), ("<< 11 2000000000"), ("sett xx yyyyyyyy")] [] =
      Outcome.ok (PicolResult.PicolOk,
        { interp0 with
            callframes := [{ vars := [(("x"), ("yyyyyyy"))] }],
            result := ("yyyyyyy") })
    ∧ picol_cmd_while (fun i t => eval 20 i t) 5 interp0 3
      [("while"), ("<< 11 2000000000"), ("zz")] [] = Outcome.fuelOut := by
  constructor
  · decide
  · decide

/-- Claim C2 (the code contradicts it): evaluating `set x 5; set y $x`
from the core-command state does not bind `y`; because eval takes the
half-open slice `string[start..end]` of each token while `end` is the
inclusive index of the last character (claim C3), the command word
`set` is dispatched as `se` and evaluation stops with `Err` and Result
`Unknown command se`. -/
theorem claim_C2 :
    eval 20 interp0 ("set x 5; set y $x") =
      Outcome.ok (PicolResult.PicolErr,
        set_result interp0 ("Unknown command se")) := by
  decide

/-- Claim C4 (the code contradicts it): eval is not total — a script
ending in the middle of a `$name` reference, inside an unterminated `[`
command substitution, or inside an unterminated `{` brace literal makes
the lexer read past the end of the input (`unwrap` of `None`), a panic
rather than a status code. -/
theorem claim_C4 :
    eval 5 interp0 ("$") = Outcome.panic
    ∧ eval 5 interp0 ("[") = Outcome.panic
    ∧ eval 5 interp0 ("\x7b") = Outcome.panic := by
  refine ⟨?_, ?_, ?_⟩ <;> decide

/-- Claim C5 (the code contradicts it): when a procedure call fails
with the wrong-number-of-arguments error, the handler returns without
popping the frame it pushed on entry: calling a one-parameter procedure
with zero arguments from the root state leaves TWO frames on the chain
(the leaked callee frame is now current) instead of restoring the
caller's single frame. -/
theorem claim_C5 :
    picol_cmd_call_proc (fun i t => eval 5 i t) interp0 1 [("p")] [("x"), ("b")] =
      Outcome.ok (PicolResult.PicolErr,
        { interp0 with
            callframes := [PicolCallFrame.new, PicolCallFrame.new],
            result := ("Wrong number of arguments for p") }) := by
  decide

/-- Witness for claim C3 at concrete tokens of each kind: the word
`set`, the variable name in `$xy;`, and the bracket script in `[ab]c`
each lex with an inclusive `end`, so the slice eval takes drops their
last character. -/
theorem claim_C3_witness :
    (∃ p2, parse_string (PicolParser.new ("set x 5")) = some p2 ∧
      p2.typ = PicolType.PTEsc ∧ p2.start = 0 ∧ p2.«end» = 2 ∧
      strSlice p2.string p2.start (p2.«end» + 1) = ("set") ∧
      strSlice p2.string p2.start p2.«end» = ("se"))
    ∧ (∃ p2, parse_var (PicolParser.new ("$xy;")) = some p2 ∧
      p2.typ = PicolType.PTVar ∧ p2.start = 1 ∧ p2.«end» = 2 ∧
      strSlice p2.string p2.start (p2.«end» + 1) = ("xy") ∧
      strSlice p2.string p2.start p2.«end» = ("x"))
    ∧ (∃ p2, parse_command (PicolParser.new ("[ab]c")) = some p2 ∧
      p2.typ = PicolType.PTCmd ∧ p2.start = 1 ∧ p2.«end» = 2 ∧
      strSlice p2.string p2.start (p2.«end» + 1) = ("ab") ∧
      strSlice p2.string p2.start p2.«end» = ("a")) := by
  refine ⟨?_, ?_, ?_⟩
  · exact claim_C3.1 (PicolParser.new ("set x 5")) [] 's' (['e', 't'])
      (' ' :: 'x' :: ' ' :: ['5']) (by decide) (by decide) (by decide) (by decide)
      (by decide) (Or.inr ⟨' ', 'x' :: ' ' :: ['5'], rfl, by decide⟩) (by decide)
  · exact claim_C3.2.1 (PicolParser.new ("$xy;")) [] (['x', 'y']) ';' []
      (by decide) (by decide) (by decide) (by decide) (by decide) (by decide)
  · exact claim_C3.2.2 (PicolParser.new ("[ab]c")) [] (['a', 'b']) (['c'])
      (by decide) (by decide) (by decide) (by decide) (by decide)
